import Mathlib

/-!
Verification of the persistent singly-linked list of `src/src/third.rs`
(a `List<T>` of `Option<Arc<Node<T>>>` links with structural sharing).

The Rust heap of `Arc<Node<T>>` allocations is embedded shallowly:
`Heap.nodes` maps an address (an index, in allocation order) to the cell
stored there (`none` = deallocated), and `Heap.rc` maps an address to the
Arc strong count of that allocation.  A `Link` (Rust `Link<T> =
Option<Arc<Node<T>>>`) is an optional address; a `List<T>` handle is
exactly its head `Link`.  Every public operation of the source is
translated as a function on the heap and a link:

* `Third.prepend`  — `List::prepend` (clone the old head, allocate one node);
* `Third.tail`     — `List::tail` (clone the successor link);
* `Third.head`     — `List::head`;
* `Third.iter` / `Third.iterNext` — `List::iter` and `Iter::next`;
* `Third.dropLoop` — the iterative `Drop for List` loop, where the
  `Arc::try_unwrap` success test is the strong count being exactly 1.

Chain walks are fuel-based; since a node's `next` link is always set at
construction to an already existing chain, every address strictly
decreases along a chain (`validB` checks this), so a fuel equal to the
heap size always suffices.
-/

namespace Third

/-- One heap cell for the Rust struct `Node<T>`: an element together with
the optional address of the successor node. -/
structure Node (α : Type) where
  elem : α
  next : Option Nat
deriving DecidableEq

/-- A Rust `Link<T> = Option<Arc<Node<T>>>`: an optional heap address.
A `List<T>` handle is exactly its head link. -/
abbrev Link := Option Nat

/-- The heap of `Arc<Node<T>>` allocations: `nodes` maps an address to
the cell stored there (`none` once deallocated), `rc` maps an address to
the Arc strong count. -/
structure Heap (α : Type) where
  nodes : List (Option (Node α))
  rc : List Nat
deriving DecidableEq

/-- Cell stored at address `a` (out of range or deallocated: `none`). -/
def nodeAt (ns : List (Option (Node α))) (a : Nat) : Option (Node α) :=
  ns.getD a none

namespace Heap

/-- Number of addresses ever allocated. -/
def size (h : Heap α) : Nat := h.nodes.length

/-- Cell stored at address `a` of the heap. -/
def node (h : Heap α) (a : Nat) : Option (Node α) := nodeAt h.nodes a

/-- Arc strong count at address `a`. -/
def rcAt (h : Heap α) (a : Nat) : Nat := h.rc.getD a 0

/-- Increment the strong count at `a` (an `Arc::clone`). -/
def incr (h : Heap α) (a : Nat) : Heap α :=
  { h with rc := h.rc.set a (h.rcAt a + 1) }

/-- Decrement the strong count at `a` (dropping one `Arc` clone). -/
def decr (h : Heap α) (a : Nat) : Heap α :=
  { h with rc := h.rc.set a (h.rcAt a - 1) }

/-- Deallocate the cell at `a` (successful `Arc::try_unwrap` consuming
the last reference: the count drops to zero and the storage is freed). -/
def free (h : Heap α) (a : Nat) : Heap α :=
  { nodes := h.nodes.set a none, rc := h.rc.set a 0 }

/-- Allocate a fresh cell (Rust `Arc::new`), strong count 1; its address
is the next unused index. -/
def alloc (h : Heap α) (nd : Node α) : Heap α × Nat :=
  ({ nodes := h.nodes ++ [some nd], rc := h.rc ++ [1] }, h.nodes.length)

end Heap

/-- Clone a link (Rust `Option<Arc<_>>::clone`): bump the strong count of
the target, if any. -/
def cloneLink (h : Heap α) (l : Link) : Heap α :=
  match l with
  | none => h
  | some a => h.incr a

/-- Rust `List::new()`: the empty list has no head link. -/
def new : Link := none

/-- Rust `List::prepend`: clone the receiver's head link and allocate one
new node holding `e` in front of it.  Returns the heap after the call and
the new list's head link. -/
def prepend (h : Heap α) (self : Link) (e : α) : Heap α × Link :=
  let h1 := cloneLink h self
  let p := h1.alloc { elem := e, next := self }
  (p.1, some p.2)

/-- Rust `List::tail`: `self.head.as_ref().and_then(|node| node.next.clone())`.
Returns the heap after the call and the new list's head link. -/
def tail (h : Heap α) (self : Link) : Heap α × Link :=
  match self with
  | none => (h, none)
  | some a =>
    match h.node a with
    | none => (h, none)
    | some nd => (cloneLink h nd.next, nd.next)

/-- Rust `List::head`: `self.head.as_ref().map(|node| &node.elem)`. -/
def head (h : Heap α) (self : Link) : Option α :=
  self.bind fun a => (h.node a).map fun nd => nd.elem

/-- Rust `List::iter`: `Iter { next: self.head.as_deref() }` — the
iterator state is the borrowed head link. -/
def iter (self : Link) : Link := self

/-- Rust `Iter::next`: yield the current node's element and advance to
its successor; on an absent reference yield nothing (and the state stays
absent). -/
def iterNext (ns : List (Option (Node α))) (it : Link) : Option (α × Link) :=
  it.bind fun a => (nodeAt ns a).map fun nd => (nd.elem, nd.next)

/-- Collect the elements yielded by repeatedly calling `Iter::next`,
with enough fuel. -/
def iterList (ns : List (Option (Node α))) : Nat → Link → List α
  | 0, _ => []
  | fuel+1, it =>
    match iterNext ns it with
    | none => []
    | some p => p.1 :: iterList ns fuel p.2

/-- The full element sequence of a list handle, read front to back by its
iterator.  A fuel equal to the heap size suffices for every valid chain. -/
def readList (h : Heap α) (l : Link) : List α := iterList h.nodes h.size l

/-- Chain validity: the link reaches only live cells, each `next` address
is strictly below its own (links are only ever set at construction to an
already existing chain), and the walk ends within `fuel` steps. -/
def validB (ns : List (Option (Node α))) : Nat → Link → Bool
  | _, none => true
  | 0, some _ => false
  | fuel+1, some a =>
    match nodeAt ns a with
    | none => false
    | some nd =>
      (match nd.next with
       | none => true
       | some b => decide (b < a)) && validB ns fuel nd.next

/-- The addresses visited by a chain walk, in order. -/
def chainAddrs (ns : List (Option (Node α))) : Nat → Link → List Nat
  | _, none => []
  | 0, some _ => []
  | fuel+1, some a =>
    match nodeAt ns a with
    | none => []
    | some nd => a :: chainAddrs ns fuel nd.next

/-- Rust `impl Drop for List`: iteratively walk the chain; while the
current node can be uniquely reclaimed (strong count 1,
`Arc::try_unwrap` succeeds) free it and move to its successor, whose
ownership transfers to the loop; at the first still-shared node just
drop one count and stop. -/
def dropLoop (h : Heap α) : Nat → Link → Heap α
  | _, none => h
  | 0, some _ => h
  | fuel+1, some a =>
    if h.rcAt a = 1 then
      match h.node a with
      | none => h
      | some nd => dropLoop (h.free a) fuel nd.next
    else h.decr a

/-- Dropping a list handle: run the teardown loop on its head link.
A fuel of `h.size` suffices because chain addresses strictly decrease. -/
def dropList (h : Heap α) (l : Link) : Heap α := dropLoop h h.size l

/-- Number of loop iterations performed by the teardown loop (the cost of
a drop); mirrors `dropLoop` exactly. -/
def dropSteps (h : Heap α) : Nat → Link → Nat
  | _, none => 0
  | 0, some _ => 0
  | fuel+1, some a =>
    if h.rcAt a = 1 then
      match h.node a with
      | none => 1
      | some nd => 1 + dropSteps (h.free a) fuel nd.next
    else 1

/-- The addresses the teardown loop reclaims: the nodes that become
solely owned (strong count 1 at the moment the loop reaches them) as a
consequence of this handle's destruction; mirrors `dropLoop` exactly. -/
def soleOwned (h : Heap α) : Nat → Link → List Nat
  | _, none => []
  | 0, some _ => []
  | fuel+1, some a =>
    if h.rcAt a = 1 then
      match h.node a with
      | none => []
      | some nd => a :: soleOwned (h.free a) fuel nd.next
    else []

/-- Number of live (not yet deallocated) nodes in the heap. -/
def liveCount (h : Heap α) : Nat := (h.nodes.filter Option.isSome).length

/-! ### Basic facts about address lookup -/

theorem getD_set_self (l : List β) (a : Nat) (h : a < l.length) (v d : β) :
    (l.set a v).getD a d = v := by
  simp [List.getD, List.getElem?_set, h]

theorem getD_set_ne (l : List β) (a b : Nat) (h : a ≠ b) (v d : β) :
    (l.set a v).getD b d = l.getD b d := by
  simp [List.getD, List.getElem?_set, h]

theorem getD_append_lt (l : List β) (c : β) (a : Nat) (h : a < l.length) (d : β) :
    (l ++ [c]).getD a d = l.getD a d := by
  simp [List.getD, List.getElem?_append, h]

theorem getD_append_self (l : List β) (c d : β) :
    (l ++ [c]).getD l.length d = c := by
  simp [List.getD, List.getElem?_append]

theorem getD_ge (l : List β) (a : Nat) (h : l.length ≤ a) (d : β) :
    l.getD a d = d := by
  simp [List.getD, List.getElem?_eq_none h]

theorem getD_lt_of_ne (l : List β) (a : Nat) (d : β) (h : l.getD a d ≠ d) :
    a < l.length := by
  by_contra hc
  exact h (getD_ge l a (Nat.le_of_not_lt hc) d)

theorem nodeAt_lt (ns : List (Option (Node α))) (a : Nat) (nd : Node α)
    (h : nodeAt ns a = some nd) : a < ns.length := by
  refine getD_lt_of_ne ns a none ?_
  rw [show ns.getD a none = nodeAt ns a from rfl, h]
  simp

theorem nodeAt_mem (ns : List (Option (Node α))) (a : Nat) (nd : Node α)
    (h : nodeAt ns a = some nd) : some nd ∈ ns := by
  have hl := nodeAt_lt ns a nd h
  have : ns.getD a none = ns[a] := by simp [List.getD, List.getElem?_eq_getElem hl]
  rw [nodeAt, this] at h
  rw [← h]
  exact List.getElem_mem hl

theorem mem_nodeAt (ns : List (Option (Node α))) (c : Option (Node α)) (h : c ∈ ns) :
    ∃ a, a < ns.length ∧ nodeAt ns a = c := by
  rcases List.mem_iff_getElem.mp h with ⟨a, ha, rfl⟩
  exact ⟨a, ha, by simp [nodeAt, List.getD, List.getElem?_eq_getElem ha]⟩

/-! ### Simple evaluation lemmas -/

theorem iterNext_none (ns : List (Option (Node α))) : iterNext ns none = none := rfl

theorem iterList_none (ns : List (Option (Node α))) (f : Nat) :
    iterList ns f none = [] := by
  cases f <;> rfl

theorem validB_none (ns : List (Option (Node α))) (f : Nat) :
    validB ns f none = true := by
  cases f <;> rfl

theorem chainAddrs_none (ns : List (Option (Node α))) (f : Nat) :
    chainAddrs ns f none = [] := by
  cases f <;> rfl

theorem tail_nodes (h : Heap α) (l : Link) : (tail h l).1.nodes = h.nodes := by
  cases l with
  | none => rfl
  | some a =>
    rw [tail]
    cases h.node a with
    | none => rfl
    | some nd =>
      cases hn : nd.next <;> simp [hn, cloneLink, Heap.incr]

theorem cloneLink_nodes (h : Heap α) (l : Link) : (cloneLink h l).nodes = h.nodes := by
  cases l <;> rfl

theorem head_some (h : Heap α) (a : Nat) :
    head h (some a) = (h.node a).map fun nd => nd.elem := rfl

theorem prepend_nodes (h : Heap α) (l : Link) (e : α) :
    (prepend h l e).1.nodes = h.nodes ++ [some ⟨e, l⟩] := by
  rw [show (prepend h l e).1.nodes = (cloneLink h l).nodes ++ [some ⟨e, l⟩] from rfl,
    cloneLink_nodes]

theorem prepend_rc (h : Heap α) (l : Link) (e : α) :
    (prepend h l e).1.rc = (cloneLink h l).rc ++ [1] := rfl

theorem prepend_link (h : Heap α) (l : Link) (e : α) :
    (prepend h l e).2 = some h.nodes.length := by
  rw [show (prepend h l e).2 = some (cloneLink h l).nodes.length from rfl,
    cloneLink_nodes]

/-! ### Fuel and chain-walk lemmas -/

theorem validB_some (ns : List (Option (Node α))) (f a : Nat)
    (hv : validB ns (f+1) (some a) = true) :
    ∃ nd, nodeAt ns a = some nd ∧ (∀ b, nd.next = some b → b < a) ∧
      validB ns f nd.next = true := by
  rw [validB] at hv
  cases hnd : nodeAt ns a with
  | none => rw [hnd] at hv; exact absurd hv (by simp)
  | some nd =>
    rw [hnd] at hv
    simp only [Bool.and_eq_true] at hv
    refine ⟨nd, rfl, ?_, hv.2⟩
    intro b hb
    rw [hb] at hv
    simpa using hv.1

theorem validB_mk (ns : List (Option (Node α))) (f a : Nat) (nd : Node α)
    (hnd : nodeAt ns a = some nd) (hlt : ∀ b, nd.next = some b → b < a)
    (hv : validB ns f nd.next = true) :
    validB ns (f+1) (some a) = true := by
  rw [validB, hnd]
  simp only [Bool.and_eq_true]
  refine ⟨?_, hv⟩
  cases hb : nd.next with
  | none => rfl
  | some b => simpa using hlt b hb

theorem validB_mono (ns : List (Option (Node α))) :
    ∀ {f g : Nat} {l : Link}, validB ns f l = true → f ≤ g →
      validB ns g l = true := by
  intro f
  induction f with
  | zero =>
    intro g l hv _
    cases l with
    | none => exact validB_none ns g
    | some a => rw [validB] at hv; exact absurd hv (by simp)
  | succ f ih =>
    intro g l hv hfg
    cases l with
    | none => exact validB_none ns g
    | some a =>
      obtain ⟨g', rfl⟩ : ∃ g', g = g' + 1 := ⟨g - 1, by omega⟩
      obtain ⟨nd, hnd, hlt, hv'⟩ := validB_some ns f a hv
      exact validB_mk ns g' a nd hnd hlt (ih hv' (by omega))

theorem iterList_some (ns : List (Option (Node α))) (f a : Nat) (nd : Node α)
    (hnd : nodeAt ns a = some nd) :
    iterList ns (f+1) (some a) = nd.elem :: iterList ns f nd.next := by
  rw [iterList, show iterNext ns (some a) = (nodeAt ns a).map fun nd => (nd.elem, nd.next)
    from rfl, hnd]
  rfl

theorem chainAddrs_some (ns : List (Option (Node α))) (f a : Nat) (nd : Node α)
    (hnd : nodeAt ns a = some nd) :
    chainAddrs ns (f+1) (some a) = a :: chainAddrs ns f nd.next := by
  rw [chainAddrs, hnd]

theorem iterList_fuel (ns : List (Option (Node α))) :
    ∀ {f g : Nat} {l : Link}, validB ns f l = true → f ≤ g →
      iterList ns g l = iterList ns f l := by
  intro f
  induction f with
  | zero =>
    intro g l hv _
    cases l with
    | none => rw [iterList_none, iterList_none]
    | some a => rw [validB] at hv; exact absurd hv (by simp)
  | succ f ih =>
    intro g l hv hfg
    cases l with
    | none => rw [iterList_none, iterList_none]
    | some a =>
      obtain ⟨g', rfl⟩ : ∃ g', g = g' + 1 := ⟨g - 1, by omega⟩
      obtain ⟨nd, hnd, _, hv'⟩ := validB_some ns f a hv
      rw [iterList_some ns g' a nd hnd, iterList_some ns f a nd hnd,
        ih hv' (by omega)]

theorem chainAddrs_live (ns : List (Option (Node α))) :
    ∀ {f : Nat} {l : Link}, validB ns f l = true →
      ∀ x ∈ chainAddrs ns f l, ∃ nd, nodeAt ns x = some nd := by
  intro f
  induction f with
  | zero =>
    intro l hv x hx
    cases l with
    | none => rw [chainAddrs_none] at hx; exact absurd hx (by simp)
    | some a => rw [validB] at hv; exact absurd hv (by simp)
  | succ f ih =>
    intro l hv x hx
    cases l with
    | none => rw [chainAddrs_none] at hx; exact absurd hx (by simp)
    | some a =>
      obtain ⟨nd, hnd, _, hv'⟩ := validB_some ns f a hv
      rw [chainAddrs_some ns f a nd hnd] at hx
      rcases List.mem_cons.mp hx with rfl | hx
      · exact ⟨nd, hnd⟩
      · exact ih hv' x hx

theorem chainAddrs_le (ns : List (Option (Node α))) :
    ∀ {f : Nat} {a : Nat}, validB ns f (some a) = true →
      ∀ x ∈ chainAddrs ns f (some a), x ≤ a := by
  intro f
  induction f with
  | zero => intro a hv; rw [validB] at hv; exact absurd hv (by simp)
  | succ f ih =>
    intro a hv x hx
    obtain ⟨nd, hnd, hlt, hv'⟩ := validB_some ns f a hv
    rw [chainAddrs_some ns f a nd hnd] at hx
    rcases List.mem_cons.mp hx with rfl | hx
    · exact Nat.le_refl x
    · cases hb : nd.next with
      | none =>
        rw [hb, chainAddrs_none] at hx
        exact absurd hx (by simp)
      | some b =>
        rw [hb] at hx
        exact Nat.le_of_lt (Nat.lt_of_le_of_lt (ih (hb ▸ hv') x hx) (hlt b hb))

theorem walk_agree (ns nt : List (Option (Node α))) :
    ∀ {f : Nat} {l : Link}, validB ns f l = true →
      (∀ x ∈ chainAddrs ns f l, nodeAt nt x = nodeAt ns x) →
      validB nt f l = true ∧ iterList nt f l = iterList ns f l ∧
        chainAddrs nt f l = chainAddrs ns f l := by
  intro f
  induction f with
  | zero =>
    intro l hv _
    cases l with
    | none =>
      exact ⟨validB_none nt 0, by rw [iterList_none, iterList_none],
        by rw [chainAddrs_none, chainAddrs_none]⟩
    | some a => rw [validB] at hv; exact absurd hv (by simp)
  | succ f ih =>
    intro l hv hag
    cases l with
    | none =>
      exact ⟨validB_none nt _, by rw [iterList_none, iterList_none],
        by rw [chainAddrs_none, chainAddrs_none]⟩
    | some a =>
      obtain ⟨nd, hnd, hlt, hv'⟩ := validB_some ns f a hv
      have hmem : ∀ x ∈ chainAddrs ns f nd.next, x ∈ chainAddrs ns (f+1) (some a) := by
        intro x hx
        rw [chainAddrs_some ns f a nd hnd]
        exact List.mem_cons_of_mem a hx
      have hnd' : nodeAt nt a = some nd := by
        rw [hag a (by rw [chainAddrs_some ns f a nd hnd]; exact List.mem_cons_self a _), hnd]
      obtain ⟨hv2, hi2, hc2⟩ := ih hv' fun x hx => hag x (hmem x hx)
      refine ⟨validB_mk nt f a nd hnd' hlt hv2, ?_, ?_⟩
      · rw [iterList_some nt f a nd hnd', iterList_some ns f a nd hnd, hi2]
      · rw [chainAddrs_some nt f a nd hnd', chainAddrs_some ns f a nd hnd, hc2]

/-! ### C1 and C6: direct computations -/

/-- C1: for every list `L` (a head link into any heap) and element `e`,
`L.prepend(e).head()` yields exactly `Some(e)` — the head read after a
prepend is the element just prepended. -/
theorem head_prepend (h : Heap α) (l : Link) (e : α) :
    head (prepend h l e).1 (prepend h l e).2 = some e := by
  rw [prepend_link, head_some, Heap.node, prepend_nodes, nodeAt, getD_append_self]
  rfl

/-- C6: querying the empty list is total and yields the explicit absent
result: `List::new().head()` is `None`, `List::new().tail()` is again the
empty list (so its head is `None`), and `Iter::next` on an exhausted
reader (absent reference) keeps returning `None` without changing state
— an idempotent terminal state, not an error.  (`head` and `iterNext`
return plain `Option` values; no failure case exists.) -/
theorem empty_queries_total (h : Heap α) :
    head h new = none ∧ tail h new = (h, new) ∧
      head (tail h new).1 (tail h new).2 = none ∧
      iterNext h.nodes (iter new) = none :=
  ⟨rfl, rfl, rfl, rfl⟩

theorem walk_append (ns : List (Option (Node α))) (c : Option (Node α)) {f : Nat}
    {l : Link} (hv : validB ns f l = true) :
    validB (ns ++ [c]) f l = true ∧ iterList (ns ++ [c]) f l = iterList ns f l ∧
      chainAddrs (ns ++ [c]) f l = chainAddrs ns f l := by
  refine walk_agree ns (ns ++ [c]) hv ?_
  intro x hx
  obtain ⟨nd, hnd⟩ := chainAddrs_live ns hv x hx
  exact getD_append_lt ns c x (nodeAt_lt ns x nd hnd) none

theorem tail_some (h : Heap α) (a : Nat) (nd : Node α) (hnd : h.node a = some nd) :
    tail h (some a) = (cloneLink h nd.next, nd.next) := by
  rw [show tail h (some a) = (match h.node a with
    | none => (h, none)
    | some nd => (cloneLink h nd.next, nd.next)) from rfl, hnd]

theorem cloneLink_size (h : Heap α) (l : Link) : (cloneLink h l).size = h.size := by
  rw [Heap.size, Heap.size, cloneLink_nodes]

theorem readList_eq (h : Heap α) (l : Link) :
    readList h l = iterList h.nodes h.nodes.length l := rfl

/-- C2: `L.prepend(e).tail()` is structurally equivalent to `L`: the new
handle need not be the identical link, but reading it front to back
yields exactly the element sequence of `L`. -/
theorem tail_prepend_readList (h : Heap α) (l : Link) (e : α)
    (hv : validB h.nodes h.size l = true) :
    readList (tail (prepend h l e).1 (prepend h l e).2).1
      (tail (prepend h l e).1 (prepend h l e).2).2 = readList h l := by
  have hnodes := prepend_nodes h l e
  have hnode : (prepend h l e).1.node h.nodes.length = some ⟨e, l⟩ := by
    rw [Heap.node, hnodes, nodeAt, getD_append_self]
  rw [prepend_link, tail_some _ _ _ hnode]
  have hva : validB h.nodes (h.nodes.length + 1) l = true :=
    validB_mono h.nodes hv (by rw [Heap.size]; omega)
  have happ := walk_append h.nodes (some ⟨e, l⟩) hva
  rw [readList_eq, cloneLink_nodes, hnodes, List.length_append]
  rw [show (h.nodes.length + [some (⟨e, l⟩ : Node α)].length) = h.nodes.length + 1
    from rfl]
  rw [happ.2.1, iterList_fuel h.nodes hv (by rw [Heap.size]; omega), readList_eq]
  rfl

/-- Build a list by prepending the given elements in order onto the empty
list in a fresh heap (the construction pattern of the source's tests). -/
def buildAux (h : Heap α) (l : Link) : List α → Heap α × Link
  | [] => (h, l)
  | e :: es => buildAux (prepend h l e).1 (prepend h l e).2 es

/-- Build from the empty heap and the empty list. -/
def build (es : List α) : Heap α × Link := buildAux ⟨[], []⟩ new es

/-- C4: `iter()` over the list built by prepending 3, then 2, then 1 onto
the empty list yields `[1, 2, 3]` — the most recently prepended element
first; and in general the sequence read by the iterator after a prepend
is the prepended element followed by the receiver's sequence, so `iter()`
always yields the finite front-to-back element sequence. -/
theorem iter_order (h : Heap α) (l : Link) (e : α)
    (hv : validB h.nodes h.size l = true) :
    readList (build [3, 2, 1]).1 (build [3, 2, 1] : Heap Nat × Link).2 = [1, 2, 3] ∧
      readList (prepend h l e).1 (prepend h l e).2 = e :: readList h l := by
  constructor
  · decide
  · rw [Heap.size] at hv
    have hnode2 : nodeAt (h.nodes ++ [some ⟨e, l⟩]) h.nodes.length = some ⟨e, l⟩ :=
      getD_append_self h.nodes _ none
    have happ := walk_append h.nodes (some ⟨e, l⟩) hv
    rw [prepend_link, readList_eq, prepend_nodes, List.length_append]
    rw [show (h.nodes.length + [some (⟨e, l⟩ : Node α)].length) = h.nodes.length + 1
      from rfl]
    rw [iterList_some _ _ _ _ hnode2, happ.2.1, readList_eq]

/-- C7: no read operation mutates the receiver or any existing node.
After `prepend` every previously existing cell is unchanged (the call
only allocates a fresh address), `tail` leaves the node store completely
unchanged, and the observable sequence of any valid handle `L` is the
same before and after either call.  (`head` and `iter` do not touch the
heap at all in the model: they return no heap.) -/
theorem ops_no_mutation (h : Heap α) (l L : Link) (e : α)
    (hv : validB h.nodes h.size L = true) :
    (∀ a, a < h.size → nodeAt (prepend h l e).1.nodes a = nodeAt h.nodes a) ∧
      (tail h l).1.nodes = h.nodes ∧
      readList (prepend h l e).1 L = readList h L ∧
      readList (tail h l).1 L = readList h L := by
  refine ⟨?_, tail_nodes h l, ?_, ?_⟩
  · intro a ha
    rw [prepend_nodes]
    exact getD_append_lt h.nodes _ a ha none
  · have hva : validB h.nodes (h.nodes.length + 1) L = true :=
      validB_mono h.nodes hv (by rw [Heap.size]; omega)
    have happ := walk_append h.nodes (some ⟨e, l⟩) hva
    rw [readList_eq, prepend_nodes, List.length_append]
    rw [show (h.nodes.length + [some (⟨e, l⟩ : Node α)].length) = h.nodes.length + 1
      from rfl]
    rw [happ.2.1, iterList_fuel h.nodes hv (by rw [Heap.size]; omega), readList_eq]
    rfl
  · rw [readList_eq, readList_eq, tail_nodes]

/-- C10: the three read operations cohere: the first item yielded by the
iterator of `L` is exactly `L.head()`, an empty head means the iterator
yields nothing, and otherwise the full yielded sequence is the head
element followed by exactly the sequence yielded by `L.tail().iter()`. -/
theorem iter_head_tail_coherent (h : Heap α) (l : Link)
    (hv : validB h.nodes h.size l = true) :
    ((iterNext h.nodes (iter l)).map Prod.fst = head h l) ∧
      (head h l = none → readList h l = []) ∧
      (∀ e, head h l = some e →
        readList h l = e :: readList (tail h l).1 (tail h l).2) := by
  refine ⟨?_, ?_, ?_⟩
  · cases l with
    | none => rfl
    | some a => cases hnd : nodeAt h.nodes a <;>
        simp [iter, iterNext, head, Heap.node, hnd]
  · intro hh
    cases l with
    | none => rw [readList_eq, iterList_none]
    | some a =>
      rw [Heap.size] at hv
      cases hsz : h.nodes.length with
      | zero => rw [hsz] at hv; rw [validB] at hv; exact absurd hv (by simp)
      | succ s =>
        rw [hsz] at hv
        obtain ⟨nd, hnd, _, _⟩ := validB_some h.nodes s a hv
        rw [head_some, Heap.node, hnd] at hh
        exact absurd hh (by simp)
  · intro e hh
    cases l with
    | none => exact absurd hh (by simp [head])
    | some a =>
      rw [Heap.size] at hv
      cases hsz : h.nodes.length with
      | zero => rw [hsz] at hv; rw [validB] at hv; exact absurd hv (by simp)
      | succ s =>
        rw [hsz] at hv
        obtain ⟨nd, hnd, _, hv'⟩ := validB_some h.nodes s a hv
        have he : nd.elem = e := by
          rw [head_some, Heap.node, hnd] at hh
          simpa using hh
        rw [tail_some h a nd hnd, readList_eq, readList_eq, cloneLink_nodes, hsz]
        rw [show ((cloneLink h nd.next, nd.next) : Heap α × Link).2 = nd.next from rfl]
        rw [iterList_some _ _ _ _ hnd, he]
        exact congrArg (e :: ·) (iterList_fuel h.nodes hv' (by omega)).symm

/-! ### C5: repeated tail calls -/

/-- Iterate `List::tail` the given number of times, threading the heap. -/
def tails (h : Heap α) (l : Link) : Nat → Heap α × Link
  | 0 => (h, l)
  | n+1 => tails (tail h l).1 (tail h l).2 n

/-- The link reached from `l` after one `tail` call; the heap part of
`tail` only adjusts strong counts, so the link evolution is a pure
function of the node store. -/
def stepLink (ns : List (Option (Node α))) (l : Link) : Link :=
  match l with
  | none => none
  | some a =>
    match nodeAt ns a with
    | none => none
    | some nd => nd.next

/-- The link reached after iterating `stepLink`. -/
def tailLink (ns : List (Option (Node α))) (l : Link) : Nat → Link
  | 0 => l
  | n+1 => tailLink ns (stepLink ns l) n

theorem tail_snd (h : Heap α) (l : Link) : (tail h l).2 = stepLink h.nodes l := by
  cases l with
  | none => rfl
  | some a => cases hnd : nodeAt h.nodes a <;> simp [tail, stepLink, Heap.node, hnd]

theorem tails_spec : ∀ (n : Nat) (h : Heap α) (l : Link),
    (tails h l n).1.nodes = h.nodes ∧ (tails h l n).2 = tailLink h.nodes l n := by
  intro n
  induction n with
  | zero => intro h l; exact ⟨rfl, rfl⟩
  | succ n ih =>
    intro h l
    have h1 := ih (tail h l).1 (tail h l).2
    constructor
    · rw [show tails h l (n+1) = tails (tail h l).1 (tail h l).2 n from rfl, h1.1,
        tail_nodes]
    · rw [show tails h l (n+1) = tails (tail h l).1 (tail h l).2 n from rfl, h1.2,
        tail_nodes, tail_snd]
      rfl

theorem tailLink_none (ns : List (Option (Node α))) :
    ∀ n, tailLink ns none n = none := by
  intro n
  induction n with
  | zero => rfl
  | succ n ih =>
    rw [show tailLink ns none (n+1) = tailLink ns (stepLink ns none) n from rfl,
      show stepLink ns none = none from rfl]
    exact ih

theorem tailLink_add (ns : List (Option (Node α))) :
    ∀ (p q : Nat) (l : Link), tailLink ns l (p + q) = tailLink ns (tailLink ns l p) q := by
  intro p
  induction p with
  | zero => intro q l; rw [Nat.zero_add]; rfl
  | succ p ih =>
    intro q l
    rw [Nat.succ_add]
    rw [show tailLink ns l (p + q + 1) = tailLink ns (stepLink ns l) (p + q) from rfl]
    rw [ih q (stepLink ns l)]
    rfl

theorem tailLink_reach (ns : List (Option (Node α))) :
    ∀ {f : Nat} {l : Link}, validB ns f l = true →
      tailLink ns l (iterList ns f l).length = none := by
  intro f
  induction f with
  | zero =>
    intro l hv
    cases l with
    | none => rfl
    | some a => rw [validB] at hv; exact absurd hv (by simp)
  | succ f ih =>
    intro l hv
    cases l with
    | none => rw [iterList_none]; rfl
    | some a =>
      obtain ⟨nd, hnd, _, hv'⟩ := validB_some ns f a hv
      rw [iterList_some ns f a nd hnd, List.length_cons]
      rw [show tailLink ns (some a) ((iterList ns f nd.next).length + 1) =
        tailLink ns (stepLink ns (some a)) (iterList ns f nd.next).length from rfl]
      rw [show stepLink ns (some a) = (match nodeAt ns a with
        | none => none
        | some nd => nd.next) from rfl, hnd]
      exact ih hv'

/-- C5: for a valid list of length `n`, iterating `tail()` any `m ≥ n+1`
times (so in particular exactly `n+1` times, and for every further call)
reaches the empty list: the handle has no head link and `head()` is
`None`. -/
theorem tail_repeated_empties (h : Heap α) (l : Link) (n : Nat)
    (hv : validB h.nodes h.size l = true) (hn : (readList h l).length = n) :
    ∀ m, n + 1 ≤ m → (tails h l m).2 = none ∧
      head (tails h l m).1 (tails h l m).2 = none := by
  intro m hm
  have hts := tails_spec m h l
  have hreach : tailLink h.nodes l n = none := by
    rw [← hn]
    exact tailLink_reach h.nodes hv
  have hnone : tailLink h.nodes l m = none := by
    obtain ⟨r, hr⟩ : ∃ r, m = n + r := ⟨m - n, by omega⟩
    rw [hr, tailLink_add, hreach, tailLink_none]
  have h2 : (tails h l m).2 = none := by rw [hts.2, hnone]
  refine ⟨h2, ?_⟩
  rw [h2]
  rfl

/-! ### C3: dropping one branch leaves a sharing branch readable -/

theorem cloneLink_rc_len (h : Heap α) (l : Link) :
    (cloneLink h l).rc.length = h.rc.length := by
  cases l <;> simp [cloneLink, Heap.incr]

theorem validB_live (ns : List (Option (Node α))) {f b : Nat}
    (hv : validB ns f (some b) = true) : ∃ nd, nodeAt ns b = some nd := by
  cases f with
  | zero => rw [validB] at hv; exact absurd hv (by simp)
  | succ f =>
    obtain ⟨nd, hnd, _, _⟩ := validB_some ns f b hv
    exact ⟨nd, hnd⟩

theorem dropLoop_none (h : Heap α) (f : Nat) : dropLoop h f none = h := by
  cases f <;> rfl

theorem dropLoop_succ (h : Heap α) (fuel a : Nat) :
    dropLoop h (fuel+1) (some a) =
      if h.rcAt a = 1 then
        match h.node a with
        | none => h
        | some nd => dropLoop (h.free a) fuel nd.next
      else h.decr a := rfl

theorem dropLoop_succ_free (h : Heap α) (fuel a : Nat) (nd : Node α)
    (h1 : h.rcAt a = 1) (h2 : h.node a = some nd) :
    dropLoop h (fuel+1) (some a) = dropLoop (h.free a) fuel nd.next := by
  rw [dropLoop_succ, if_pos h1, h2]

theorem dropLoop_succ_shared (h : Heap α) (fuel a : Nat) (hne : ¬ h.rcAt a = 1) :
    dropLoop h (fuel+1) (some a) = h.decr a := by
  rw [dropLoop_succ, if_neg hne]

theorem dropList_eq (h : Heap α) (l : Link) :
    dropList h l = dropLoop h h.nodes.length l := rfl

/-- C3: structural sharing survives the destruction of one branch.  For
any valid `base` and elements `x`, `y`, build `A = base.prepend(x)` and
`B = base.prepend(y)` and drop `A`: the teardown loop frees A's private
head node, finds the shared `base` head still referenced (its strong
count is at least 2) and stops, so `B` still reads its full sequence
`y` followed by everything `base` contained. -/
theorem drop_branch_preserves_shared (h : Heap α) (base : Link) (x y : α)
    (hrc : h.rc.length = h.nodes.length) (hv : validB h.nodes h.size base = true) :
    readList (dropList (prepend (prepend h base x).1 base y).1 (prepend h base x).2)
      (prepend (prepend h base x).1 base y).2 = y :: readList h base := by
  rw [Heap.size] at hv
  cases base with
  | none =>
    have h1nodes := prepend_nodes h none x
    have h1rc : (prepend h (none : Link) x).1.rc = h.rc ++ [1] := prepend_rc h none x
    have h1len : (prepend h (none : Link) x).1.nodes.length = h.nodes.length + 1 := by
      rw [h1nodes]; simp
    have h1rclen : (prepend h (none : Link) x).1.rc.length = h.nodes.length + 1 := by
      rw [h1rc, List.length_append, hrc]; rfl
    have h2nodes := prepend_nodes (prepend h (none : Link) x).1 none y
    have h2rc : (prepend (prepend h (none : Link) x).1 none y).1.rc
        = (prepend h (none : Link) x).1.rc ++ [1] :=
      prepend_rc (prepend h (none : Link) x).1 none y
    have h2len : (prepend (prepend h (none : Link) x).1 none y).1.nodes.length
        = h.nodes.length + 2 := by
      rw [h2nodes, List.length_append, h1len]; rfl
    have hrc2n : (prepend (prepend h (none : Link) x).1 none y).1.rcAt
        h.nodes.length = 1 := by
      rw [Heap.rcAt, h2rc, getD_append_lt _ _ _ (by omega) 0, h1rc, ← hrc,
        getD_append_self]
    have hnode2n : (prepend (prepend h (none : Link) x).1 none y).1.node
        h.nodes.length = some ⟨x, none⟩ := by
      rw [Heap.node, h2nodes, nodeAt, getD_append_lt _ _ _ (by omega) none,
        h1nodes, getD_append_self]
    rw [prepend_link h (none : Link) x,
      prepend_link (prepend h (none : Link) x).1 (none : Link) y, h1len,
      dropList_eq, h2len, show h.nodes.length + 2 = (h.nodes.length + 1) + 1 from rfl,
      dropLoop_succ_free _ _ _ _ hrc2n hnode2n,
      show (⟨x, (none : Link)⟩ : Node α).next = none from rfl, dropLoop_none]
    rw [readList_eq,
      show ((prepend (prepend h (none : Link) x).1 none y).1.free
          h.nodes.length).nodes
        = (prepend (prepend h (none : Link) x).1 none y).1.nodes.set
            h.nodes.length none from rfl,
      List.length_set, h2len, show h.nodes.length + 2 = (h.nodes.length + 1) + 1
        from rfl]
    have hnode3 : nodeAt ((prepend (prepend h (none : Link) x).1 none y).1.nodes.set
        h.nodes.length none) (h.nodes.length + 1) = some ⟨y, none⟩ := by
      rw [nodeAt, getD_set_ne _ _ _ (by omega) none none, h2nodes, ← h1len,
        getD_append_self]
    rw [iterList_some _ _ _ _ hnode3,
      show (⟨y, (none : Link)⟩ : Node α).next = none from rfl, iterList_none,
      readList_eq, iterList_none]
  | some b =>
    obtain ⟨bnd, hbnd⟩ := validB_live h.nodes hv
    have hb' : b < h.nodes.length := nodeAt_lt h.nodes b bnd hbnd
    have h1nodes := prepend_nodes h (some b) x
    have h1rc : (prepend h (some b : Link) x).1.rc
        = (cloneLink h (some b)).rc ++ [1] := prepend_rc h (some b) x
    have hclrc : (cloneLink h (some b : Link)).rc = h.rc.set b (h.rcAt b + 1) := rfl
    have hcllen : (cloneLink h (some b : Link)).rc.length = h.nodes.length := by
      rw [cloneLink_rc_len, hrc]
    have h1len : (prepend h (some b : Link) x).1.nodes.length
        = h.nodes.length + 1 := by
      rw [h1nodes]; simp
    have h1rclen : (prepend h (some b : Link) x).1.rc.length
        = h.nodes.length + 1 := by
      rw [h1rc, List.length_append, hcllen]; rfl
    have hrc1b : (prepend h (some b : Link) x).1.rcAt b = h.rcAt b + 1 := by
      rw [Heap.rcAt, h1rc, getD_append_lt _ _ _ (by omega) 0, hclrc,
        getD_set_self _ _ (by omega)]
    have h2nodes := prepend_nodes (prepend h (some b : Link) x).1 (some b) y
    have h2rc : (prepend (prepend h (some b : Link) x).1 (some b) y).1.rc
        = (cloneLink (prepend h (some b : Link) x).1 (some b)).rc ++ [1] :=
      prepend_rc (prepend h (some b : Link) x).1 (some b) y
    have hcl2 : (cloneLink (prepend h (some b : Link) x).1 (some b)).rc
        = (prepend h (some b : Link) x).1.rc.set b
            ((prepend h (some b : Link) x).1.rcAt b + 1) := rfl
    have hcl2len : (cloneLink (prepend h (some b : Link) x).1 (some b)).rc.length
        = h.nodes.length + 1 := by
      rw [cloneLink_rc_len, h1rclen]
    have h2len : (prepend (prepend h (some b : Link) x).1 (some b) y).1.nodes.length
        = h.nodes.length + 2 := by
      rw [h2nodes, List.length_append, h1len]; rfl
    have hrc2n : (prepend (prepend h (some b : Link) x).1 (some b) y).1.rcAt
        h.nodes.length = 1 := by
      rw [Heap.rcAt, h2rc, getD_append_lt _ _ _ (by omega) 0, hcl2,
        getD_set_ne _ _ _ (by omega) _ 0, h1rc, ← hcllen, getD_append_self]
    have hrc2b : (prepend (prepend h (some b : Link) x).1 (some b) y).1.rcAt b
        = h.rcAt b + 2 := by
      rw [Heap.rcAt, h2rc, getD_append_lt _ _ _ (by omega) 0, hcl2,
        getD_set_self _ _ (by omega), hrc1b]
    have hnode2n : (prepend (prepend h (some b : Link) x).1 (some b) y).1.node
        h.nodes.length = some ⟨x, some b⟩ := by
      rw [Heap.node, h2nodes, nodeAt, getD_append_lt _ _ _ (by omega) none,
        h1nodes, getD_append_self]
    rw [prepend_link h (some b : Link) x,
      prepend_link (prepend h (some b : Link) x).1 (some b : Link) y, h1len,
      dropList_eq, h2len, show h.nodes.length + 2 = (h.nodes.length + 1) + 1 from rfl,
      dropLoop_succ_free _ _ _ _ hrc2n hnode2n,
      show (⟨x, (some b : Link)⟩ : Node α).next = some b from rfl]
    have hrcfb : ((prepend (prepend h (some b : Link) x).1 (some b) y).1.free
        h.nodes.length).rcAt b = h.rcAt b + 2 := by
      rw [Heap.rcAt,
        show ((prepend (prepend h (some b : Link) x).1 (some b) y).1.free
            h.nodes.length).rc
          = (prepend (prepend h (some b : Link) x).1 (some b) y).1.rc.set
              h.nodes.length 0 from rfl,
        getD_set_ne _ _ _ (by omega) _ 0]
      exact hrc2b
    rw [dropLoop_succ_shared _ _ _ (by omega)]
    rw [readList_eq,
      show (((prepend (prepend h (some b : Link) x).1 (some b) y).1.free
          h.nodes.length).decr b).nodes
        = (prepend (prepend h (some b : Link) x).1 (some b) y).1.nodes.set
            h.nodes.length none from rfl,
      List.length_set, h2len, show h.nodes.length + 2 = (h.nodes.length + 1) + 1
        from rfl]
    have hnode3 : nodeAt ((prepend (prepend h (some b : Link) x).1
        (some b) y).1.nodes.set h.nodes.length none) (h.nodes.length + 1)
        = some ⟨y, some b⟩ := by
      rw [nodeAt, getD_set_ne _ _ _ (by omega) none none, h2nodes, ← h1len,
        getD_append_self]
    rw [iterList_some _ _ _ _ hnode3,
      show (⟨y, (some b : Link)⟩ : Node α).next = some b from rfl]
    have hv1 : validB h.nodes (h.nodes.length + 1) (some b) = true :=
      validB_mono h.nodes hv (by omega)
    have hagree : ∀ z ∈ chainAddrs h.nodes (h.nodes.length + 1) (some b),
        nodeAt ((prepend (prepend h (some b : Link) x).1 (some b) y).1.nodes.set
          h.nodes.length none) z = nodeAt h.nodes z := by
      intro z hz
      obtain ⟨nd, hnd⟩ := chainAddrs_live h.nodes hv1 z hz
      have hzlt : z < h.nodes.length := nodeAt_lt h.nodes z nd hnd
      rw [nodeAt, getD_set_ne _ _ _ (by omega) none none, h2nodes,
        getD_append_lt _ _ _ (by omega) none, h1nodes,
        getD_append_lt _ _ _ hzlt none]
      rfl
    have hw := walk_agree h.nodes _ hv1 hagree
    rw [hw.2.1, iterList_fuel h.nodes hv (by omega), readList_eq]

/-! ### C8: the teardown loop frees exactly the solely owned prefix -/

theorem free_nodes (h : Heap α) (a : Nat) : (h.free a).nodes = h.nodes.set a none := rfl

theorem decr_nodes (h : Heap α) (a : Nat) : (h.decr a).nodes = h.nodes := rfl

theorem soleOwned_none (h : Heap α) (f : Nat) : soleOwned h f none = [] := by
  cases f <;> rfl

theorem soleOwned_succ (h : Heap α) (fuel a : Nat) :
    soleOwned h (fuel+1) (some a) =
      if h.rcAt a = 1 then
        match h.node a with
        | none => []
        | some nd => a :: soleOwned (h.free a) fuel nd.next
      else [] := rfl

theorem soleOwned_succ_free (h : Heap α) (fuel a : Nat) (nd : Node α)
    (h1 : h.rcAt a = 1) (h2 : h.node a = some nd) :
    soleOwned h (fuel+1) (some a) = a :: soleOwned (h.free a) fuel nd.next := by
  rw [soleOwned_succ, if_pos h1, h2]

theorem soleOwned_succ_shared (h : Heap α) (fuel a : Nat) (hne : ¬ h.rcAt a = 1) :
    soleOwned h (fuel+1) (some a) = [] := by
  rw [soleOwned_succ, if_neg hne]

theorem dropSteps_none (h : Heap α) (f : Nat) : dropSteps h f none = 0 := by
  cases f <;> rfl

theorem dropSteps_succ (h : Heap α) (fuel a : Nat) :
    dropSteps h (fuel+1) (some a) =
      if h.rcAt a = 1 then
        match h.node a with
        | none => 1
        | some nd => 1 + dropSteps (h.free a) fuel nd.next
      else 1 := rfl

theorem dropSteps_succ_free (h : Heap α) (fuel a : Nat) (nd : Node α)
    (h1 : h.rcAt a = 1) (h2 : h.node a = some nd) :
    dropSteps h (fuel+1) (some a) = 1 + dropSteps (h.free a) fuel nd.next := by
  rw [dropSteps_succ, if_pos h1, h2]

theorem dropSteps_succ_shared (h : Heap α) (fuel a : Nat) (hne : ¬ h.rcAt a = 1) :
    dropSteps h (fuel+1) (some a) = 1 := by
  rw [dropSteps_succ, if_neg hne]

theorem filterLen_set (p : β → Bool) :
    ∀ (l : List β) (i : Nat) (v : β) (hi : i < l.length),
      ((l.set i v).filter p).length + (if p l[i] then 1 else 0)
        = (l.filter p).length + (if p v then 1 else 0) := by
  intro l
  induction l with
  | nil => intro i v hi; simp at hi
  | cons c t ih =>
    intro i v hi
    cases i with
    | zero =>
      rw [List.set_cons_zero, List.filter_cons, List.filter_cons]
      simp only [List.getElem_cons_zero]
      by_cases hp : p c = true <;> by_cases hq : p v = true <;>
        simp [hp, hq]
    | succ i =>
      rw [List.set_cons_succ, List.filter_cons, List.filter_cons]
      simp only [List.getElem_cons_succ]
      have hstep := ih i v (by simpa using hi)
      by_cases hp : p c = true <;> simp [hp] <;> omega

theorem liveCount_free (h : Heap α) (a : Nat) (nd : Node α)
    (hnd : nodeAt h.nodes a = some nd) :
    liveCount (h.free a) + 1 = liveCount h := by
  have hlt := nodeAt_lt h.nodes a nd hnd
  have hstep := filterLen_set Option.isSome h.nodes a none hlt
  have hg : h.nodes[a] = some nd := by
    have : h.nodes.getD a none = h.nodes[a] := by
      simp [List.getD, List.getElem?_eq_getElem hlt]
    rw [← this]
    exact hnd
  rw [hg] at hstep
  simpa [liveCount, Heap.free] using hstep

/-- Agreement of a freed heap with the original on a chain that lies
strictly below the freed address. -/
theorem set_agree_below (ns : List (Option (Node α))) (a fuel : Nat) (nd : Node α)
    (hlt : ∀ b, nd.next = some b → b < a)
    (hv : validB ns fuel nd.next = true) :
    ∀ w ∈ chainAddrs ns fuel nd.next, nodeAt (ns.set a none) w = nodeAt ns w := by
  intro w hw
  cases hnx : nd.next with
  | none => rw [hnx, chainAddrs_none] at hw; exact absurd hw (by simp)
  | some b =>
    have hb := hlt b hnx
    rw [hnx] at hw
    have hwb : w ≤ b := chainAddrs_le ns (hnx ▸ hv) w hw
    exact getD_set_ne ns a w (by omega) none none

theorem soleOwned_chain : ∀ (fuel : Nat) (h : Heap α) (l : Link),
    validB h.nodes fuel l = true →
    ∀ z ∈ soleOwned h fuel l, z ∈ chainAddrs h.nodes fuel l := by
  intro fuel
  induction fuel with
  | zero =>
    intro h l hv z hz
    cases l with
    | none => rw [soleOwned_none] at hz; exact absurd hz (by simp)
    | some a => rw [validB] at hv; exact absurd hv (by simp)
  | succ fuel ih =>
    intro h l hv z hz
    cases l with
    | none => rw [soleOwned_none] at hz; exact absurd hz (by simp)
    | some a =>
      obtain ⟨nd, hnd, hlt, hv'⟩ := validB_some _ fuel a hv
      rw [chainAddrs_some _ fuel a nd hnd]
      by_cases hrc1 : h.rcAt a = 1
      · rw [soleOwned_succ_free h fuel a nd hrc1 hnd] at hz
        rcases List.mem_cons.mp hz with rfl | hz'
        · exact List.mem_cons_self _ _
        · have hagree := set_agree_below h.nodes a fuel nd hlt hv'
          have hwalk := walk_agree h.nodes (h.nodes.set a none) hv' hagree
          have hvfree : validB (h.free a).nodes fuel nd.next = true := hwalk.1
          have hsub := ih (h.free a) nd.next hvfree z hz'
          rw [show (h.free a).nodes = h.nodes.set a none from rfl, hwalk.2.2] at hsub
          exact List.mem_cons_of_mem a hsub
      · rw [soleOwned_succ_shared h fuel a hrc1] at hz
        exact absurd hz (by simp)

theorem dropLoop_reclaim : ∀ (fuel : Nat) (h : Heap α) (l : Link),
    validB h.nodes fuel l = true →
    (∀ z, nodeAt (dropLoop h fuel l).nodes z
        = if z ∈ soleOwned h fuel l then none else nodeAt h.nodes z) ∧
      liveCount (dropLoop h fuel l) + (soleOwned h fuel l).length = liveCount h ∧
      dropSteps h fuel l ≤ (soleOwned h fuel l).length + 1 := by
  intro fuel
  induction fuel with
  | zero =>
    intro h l hv
    cases l with
    | none =>
      rw [dropLoop_none, soleOwned_none, dropSteps_none]
      exact ⟨fun z => by simp, by simp, by simp⟩
    | some a => rw [validB] at hv; exact absurd hv (by simp)
  | succ fuel ih =>
    intro h l hv
    cases l with
    | none =>
      rw [dropLoop_none, soleOwned_none, dropSteps_none]
      exact ⟨fun z => by simp, by simp, by simp⟩
    | some a =>
      obtain ⟨nd, hnd, hlt, hv'⟩ := validB_some _ fuel a hv
      by_cases hrc1 : h.rcAt a = 1
      · rw [dropLoop_succ_free h fuel a nd hrc1 hnd,
          soleOwned_succ_free h fuel a nd hrc1 hnd,
          dropSteps_succ_free h fuel a nd hrc1 hnd]
        have hagree := set_agree_below h.nodes a fuel nd hlt hv'
        have hwalk := walk_agree h.nodes (h.nodes.set a none) hv' hagree
        have hvfree : validB (h.free a).nodes fuel nd.next = true := hwalk.1
        obtain ⟨ih1, ih2, ih3⟩ := ih (h.free a) nd.next hvfree
        have hanot : a ∉ soleOwned (h.free a) fuel nd.next := by
          intro hmem
          have hchain := soleOwned_chain fuel (h.free a) nd.next hvfree a hmem
          rw [show (h.free a).nodes = h.nodes.set a none from rfl, hwalk.2.2] at hchain
          cases hnx : nd.next with
          | none => rw [hnx, chainAddrs_none] at hchain; exact absurd hchain (by simp)
          | some b =>
            rw [hnx] at hchain
            have hab := chainAddrs_le h.nodes (hnx ▸ hv') a hchain
            have hb := hlt b hnx
            omega
        have halt : a < h.nodes.length := nodeAt_lt h.nodes a nd hnd
        refine ⟨?_, ?_, ?_⟩
        · intro z
          rw [ih1 z]
          by_cases hz : z ∈ soleOwned (h.free a) fuel nd.next
          · rw [if_pos hz, if_pos (List.mem_cons_of_mem a hz)]
          · rw [if_neg hz, free_nodes]
            by_cases hza : z = a
            · subst hza
              rw [if_pos (List.mem_cons_self _ _)]
              exact getD_set_self h.nodes z halt none none
            · rw [if_neg (by simp [hza, hz])]
              exact getD_set_ne h.nodes a z (fun hh => hza hh.symm) none none
        · have hlf := liveCount_free h a nd hnd
          rw [List.length_cons]
          omega
        · rw [List.length_cons]
          omega
      · rw [dropLoop_succ_shared h fuel a hrc1, soleOwned_succ_shared h fuel a hrc1,
          dropSteps_succ_shared h fuel a hrc1]
        refine ⟨fun z => by simp [decr_nodes], ?_, by simp⟩
        rw [List.length_nil]
        rfl

/-- C8: dropping a handle with a valid chain tears the chain down with
the iterative loop: it deallocates exactly the addresses in `soleOwned`
(the maximal leading run of nodes whose strong count is 1 when the loop
reaches them, i.e. the k nodes that become solely owned through this
destruction), touches no other cell, lowers the live-node count by
exactly k, and performs at most k+1 loop iterations — O(k) work and, the
walk being a loop rather than per-node recursion, stack-safe for any
chain length. -/
theorem drop_frees_solely_owned (h : Heap α) (l : Link)
    (hv : validB h.nodes h.size l = true) :
    (∀ z, nodeAt (dropList h l).nodes z
        = if z ∈ soleOwned h h.size l then none else nodeAt h.nodes z) ∧
      liveCount (dropList h l) + (soleOwned h h.size l).length = liveCount h ∧
      dropSteps h h.size l ≤ (soleOwned h h.size l).length + 1 :=
  dropLoop_reclaim h.size h l hv

/-! ### C9: machine model — arbitrary programs over shared handles -/

/-- A machine state: the shared heap plus the currently held `List<T>`
handles (each one a head link), in creation order. -/
structure MState (α : Type) where
  heap : Heap α
  handles : List Link

/-- A program operation: create an empty list, prepend to / take the
tail of the list held by handle `i` (the result becomes a new handle),
or drop handle `i` (running the destructor and forgetting the handle). -/
inductive Op (α : Type) where
  | newOp : Op α
  | prependOp (i : Nat) (e : α) : Op α
  | tailOp (i : Nat) : Op α
  | dropOp (i : Nat) : Op α

/-- One step of the machine; an operation naming a handle that does not
exist does nothing. -/
def step (s : MState α) : Op α → MState α
  | .newOp => ⟨s.heap, s.handles ++ [new]⟩
  | .prependOp i e =>
    if hi : i < s.handles.length then
      ⟨(prepend s.heap s.handles[i] e).1,
        s.handles ++ [(prepend s.heap s.handles[i] e).2]⟩
    else s
  | .tailOp i =>
    if hi : i < s.handles.length then
      ⟨(tail s.heap s.handles[i]).1, s.handles ++ [(tail s.heap s.handles[i]).2]⟩
    else s
  | .dropOp i =>
    if hi : i < s.handles.length then
      ⟨dropList s.heap s.handles[i], s.handles.eraseIdx i⟩
    else s

/-- Run a program from the initial state: empty heap, no handles. -/
def run (p : List (Op α)) : MState α := p.foldl step ⟨⟨[], []⟩, []⟩

/-- Drop the first handle `n` times. -/
def dropAllGo : Nat → MState α → MState α
  | 0, s => s
  | n+1, s => dropAllGo n (step s (.dropOp 0))

/-- Drop every remaining handle. -/
def dropAll (s : MState α) : MState α := dropAllGo s.handles.length s

/-- Number of handles holding a reference to address `a`. -/
def handleRefs (hs : List Link) (a : Nat) : Nat :=
  (hs.filter fun l => decide (l = some a)).length

/-- Number of live cells whose `next` link references address `a`. -/
def nodeRefs (ns : List (Option (Node α))) (a : Nat) : Nat :=
  (ns.filter fun c => decide ((c.bind fun nd => nd.next) = some a)).length

/-- Actual number of references to address `a` in the state. -/
def refs (ns : List (Option (Node α))) (hs : List Link) (a : Nat) : Nat :=
  handleRefs hs a + nodeRefs ns a

/-- Global store well-formedness: every live cell links only to a
strictly earlier live cell. -/
def LinksWF (ns : List (Option (Node α))) : Prop :=
  ∀ a nd b, nodeAt ns a = some nd → nd.next = some b →
    b < a ∧ nodeAt ns b ≠ none

/-- Every handle references a live cell (no dangling handle — the
no-use-after-free property). -/
def HandlesWF (ns : List (Option (Node α))) (hs : List Link) : Prop :=
  ∀ l ∈ hs, ∀ a, l = some a → nodeAt ns a ≠ none

/-- The stored strong count of every live cell equals the actual number
of references to it and is positive (no unreachable live cell — the
no-leak property). -/
def RcWF (h : Heap α) (hs : List Link) : Prop :=
  ∀ a, nodeAt h.nodes a ≠ none →
    h.rcAt a = refs h.nodes hs a ∧ 1 ≤ h.rcAt a

/-- The machine invariant. -/
def Inv (s : MState α) : Prop :=
  s.heap.rc.length = s.heap.nodes.length ∧ LinksWF s.heap.nodes ∧
    HandlesWF s.heap.nodes s.handles ∧ RcWF s.heap s.handles

/-! #### Counting lemmas -/

theorem handleRefs_append_none (hs : List Link) (a : Nat) :
    handleRefs (hs ++ [none]) a = handleRefs hs a := by
  simp [handleRefs, List.filter_append]

theorem handleRefs_append_some (hs : List Link) (b a : Nat) :
    handleRefs (hs ++ [some b]) a
      = handleRefs hs a + (if b = a then 1 else 0) := by
  simp only [handleRefs, List.filter_append, List.length_append]
  by_cases hb : b = a <;> simp [hb]

theorem handleRefs_pos_of_mem (hs : List Link) (a : Nat) (hm : some a ∈ hs) :
    1 ≤ handleRefs hs a := by
  have hfm : (some a : Link) ∈ hs.filter fun l => decide (l = some a) :=
    List.mem_filter.mpr ⟨hm, by simp⟩
  have := List.length_pos.mpr (List.ne_nil_of_mem hfm)
  rw [handleRefs]
  omega

theorem handleRefs_perm (hs1 hs2 : List Link) (hp : List.Perm hs1 hs2) (a : Nat) :
    handleRefs hs1 a = handleRefs hs2 a := by
  rw [handleRefs, handleRefs]
  exact (hp.filter _).length_eq

theorem mem_of_handleRefs_pos (hs : List Link) (a : Nat)
    (h1 : 1 ≤ handleRefs hs a) : some a ∈ hs := by
  rw [handleRefs] at h1
  have hne : hs.filter (fun l => decide (l = some a)) ≠ [] := by
    intro hnil
    rw [hnil] at h1
    simp at h1
  obtain ⟨l, hl⟩ := List.exists_mem_of_ne_nil _ hne
  obtain ⟨hlm, hlp⟩ := List.mem_filter.mp hl
  have hle : l = some a := by simpa using hlp
  rw [← hle]
  exact hlm

theorem not_mem_of_handleRefs_zero (hs : List Link) (a : Nat)
    (h0 : handleRefs hs a = 0) : some a ∉ hs := by
  intro hm
  have := handleRefs_pos_of_mem hs a hm
  omega

theorem nodeRefs_append (ns : List (Option (Node α))) (c : Option (Node α)) (a : Nat) :
    nodeRefs (ns ++ [c]) a
      = nodeRefs ns a + (if (c.bind fun nd => nd.next) = some a then 1 else 0) := by
  simp only [nodeRefs, List.filter_append, List.length_append]
  by_cases hc : (c.bind fun nd => nd.next) = some a <;> simp [hc]

theorem nodeRefs_append_node (ns : List (Option (Node α))) (e : α) (l : Link) (a : Nat) :
    nodeRefs (ns ++ [some ⟨e, l⟩]) a
      = nodeRefs ns a + (if l = some a then 1 else 0) := by
  rw [nodeRefs_append]
  rfl

theorem nodeRefs_set (ns : List (Option (Node α))) (i : Nat) (v : Option (Node α))
    (hi : i < ns.length) (a : Nat) :
    nodeRefs (ns.set i v) a + (if (ns[i].bind fun nd => nd.next) = some a then 1 else 0)
      = nodeRefs ns a + (if (v.bind fun nd => nd.next) = some a then 1 else 0) := by
  have := filterLen_set (fun c => decide ((c.bind fun nd => nd.next) = some a)) ns i v hi
  simpa using this

theorem nodeRefs_pos (ns : List (Option (Node α))) (a x : Nat) (nd : Node α)
    (hx : nodeAt ns x = some nd) (hnx : nd.next = some a) : 1 ≤ nodeRefs ns a := by
  have hmem := nodeAt_mem ns x nd hx
  have hfm : some nd ∈ ns.filter fun c => decide ((c.bind fun nd => nd.next) = some a) :=
    List.mem_filter.mpr ⟨hmem, by simp [hnx]⟩
  have := List.length_pos.mpr (List.ne_nil_of_mem hfm)
  rw [nodeRefs]
  omega

theorem nodeRefs_ex (ns : List (Option (Node α))) (a : Nat)
    (h1 : 1 ≤ nodeRefs ns a) :
    ∃ x nd, nodeAt ns x = some nd ∧ nd.next = some a := by
  rw [nodeRefs] at h1
  have hne : ns.filter (fun c => decide ((c.bind fun nd => nd.next) = some a)) ≠ [] := by
    intro hnil
    rw [hnil] at h1
    simp at h1
  obtain ⟨c, hc⟩ := List.exists_mem_of_ne_nil _ hne
  obtain ⟨hcm, hcp⟩ := List.mem_filter.mp hc
  cases c with
  | none => simp at hcp
  | some nd =>
    obtain ⟨x, _, hx⟩ := mem_nodeAt ns (some nd) hcm
    exact ⟨x, nd, hx, by simpa using hcp⟩

theorem cloneLink_rcAt (h : Heap α) (l : Link) (c : Nat) (hc : c < h.rc.length) :
    (cloneLink h l).rcAt c = h.rcAt c + (if l = some c then 1 else 0) := by
  cases l with
  | none => simp [cloneLink]
  | some b =>
    have hcl : (cloneLink h (some b)).rcAt c = (h.rc.set b (h.rcAt b + 1)).getD c 0 := rfl
    by_cases hb : b = c
    · rw [hcl, hb, getD_set_self h.rc c hc, if_pos rfl]
    · rw [hcl, getD_set_ne h.rc b c hb _ 0, if_neg (by simp [hb])]
      rfl

theorem ne_none_ex (ns : List (Option (Node α))) (a : Nat)
    (h : nodeAt ns a ≠ none) : ∃ nd, nodeAt ns a = some nd := by
  cases hnd : nodeAt ns a with
  | none => exact absurd hnd h
  | some nd => exact ⟨nd, rfl⟩

theorem refs_append_none (ns : List (Option (Node α))) (hs : List Link) (a : Nat) :
    refs ns (hs ++ [none]) a = refs ns hs a := by
  rw [refs, refs, handleRefs_append_none]

theorem RcWF_cursor_none (h : Heap α) (hs : List Link)
    (hR : RcWF h (hs ++ [(none : Link)])) : RcWF h hs := by
  intro a ha
  obtain ⟨h1, h2⟩ := hR a ha
  rw [refs_append_none] at h1
  exact ⟨h1, h2⟩

theorem getElem_of_nodeAt (ns : List (Option (Node α))) (a : Nat) (nd : Node α)
    (hnd : nodeAt ns a = some nd) (ha : a < ns.length) : ns[a] = some nd := by
  have h1 : ns.getD a none = ns[a] := by
    simp [List.getD, List.getElem?_eq_getElem ha]
  rw [← h1]
  exact hnd

theorem nodeRefs_free (ns : List (Option (Node α))) (a : Nat) (nd : Node α)
    (hnd : nodeAt ns a = some nd) (c : Nat) :
    nodeRefs (ns.set a none) c + (if nd.next = some c then 1 else 0)
      = nodeRefs ns c := by
  have halen := nodeAt_lt ns a nd hnd
  have hset := nodeRefs_set ns a none halen c
  rw [getElem_of_nodeAt ns a nd hnd halen] at hset
  simpa using hset

/-- Invariant preservation through the teardown loop: the loop cursor is
counted as one extra reference (the moved Arc it owns); when the loop
ends the cursor reference is gone and the remaining state is again
consistent. -/
theorem dropLoop_inv : ∀ (fuel : Nat) (h : Heap α) (hs : List Link) (cur : Link),
    h.rc.length = h.nodes.length →
    LinksWF h.nodes →
    HandlesWF h.nodes hs →
    RcWF h (hs ++ [cur]) →
    (∀ a, cur = some a → nodeAt h.nodes a ≠ none ∧ a < fuel) →
    (dropLoop h fuel cur).rc.length = (dropLoop h fuel cur).nodes.length ∧
      (dropLoop h fuel cur).nodes.length = h.nodes.length ∧
      LinksWF (dropLoop h fuel cur).nodes ∧
      HandlesWF (dropLoop h fuel cur).nodes hs ∧
      RcWF (dropLoop h fuel cur) hs := by
  intro fuel
  induction fuel with
  | zero =>
    intro h hs cur hlen hL hH hR hcur
    cases cur with
    | none =>
      rw [dropLoop_none]
      exact ⟨hlen, rfl, hL, hH, RcWF_cursor_none h hs hR⟩
    | some a => exact absurd (hcur a rfl).2 (by omega)
  | succ fuel ih =>
    intro h hs cur hlen hL hH hR hcur
    cases cur with
    | none =>
      rw [dropLoop_none]
      exact ⟨hlen, rfl, hL, hH, RcWF_cursor_none h hs hR⟩
    | some a =>
      obtain ⟨hlive, hafuel⟩ := hcur a rfl
      obtain ⟨nd, hnd⟩ := ne_none_ex h.nodes a hlive
      have halen : a < h.nodes.length := nodeAt_lt h.nodes a nd hnd
      obtain ⟨hra, hrapos⟩ := hR a hlive
      by_cases hrc1 : h.rcAt a = 1
      · -- the node is reclaimed: nothing but the cursor references it
        rw [refs, handleRefs_append_some, if_pos rfl] at hra
        obtain ⟨hc1, hc2⟩ : handleRefs hs a = 0 ∧ nodeRefs h.nodes a = 0 := by
          constructor <;> omega
        rw [dropLoop_succ_free h fuel a nd hrc1 hnd]
        have hLf : LinksWF (h.free a).nodes := by
          intro x nd' b hx hb
          rw [free_nodes, nodeAt] at hx
          have hxa : x ≠ a := by
            intro hxe
            rw [hxe, getD_set_self h.nodes a halen none none] at hx
            exact absurd hx (by simp)
          rw [getD_set_ne h.nodes a x (fun hh => hxa hh.symm) none none] at hx
          obtain ⟨hba, hbl⟩ := hL x nd' b hx hb
          have hba2 : b ≠ a := by
            intro hbe
            have := nodeRefs_pos h.nodes a x nd' hx (hbe ▸ hb)
            omega
          refine ⟨hba, ?_⟩
          rw [free_nodes, nodeAt,
            getD_set_ne h.nodes a b (fun hh => hba2 hh.symm) none none]
          exact hbl
        have hHf : HandlesWF (h.free a).nodes hs := by
          intro l hl b hlb
          have hol := hH l hl b hlb
          have hba : b ≠ a := by
            intro hbe
            exact not_mem_of_handleRefs_zero hs a hc1 (by rw [← hbe, ← hlb]; exact hl)
          rw [free_nodes, nodeAt,
            getD_set_ne h.nodes a b (fun hh => hba hh.symm) none none]
          exact hol
        have hRf : RcWF (h.free a) (hs ++ [nd.next]) := by
          intro c hcl
          rw [free_nodes, nodeAt] at hcl
          have hca : c ≠ a := by
            intro hce
            rw [hce, getD_set_self h.nodes a halen none none] at hcl
            exact hcl rfl
          rw [getD_set_ne h.nodes a c (fun hh => hca hh.symm) none none] at hcl
          obtain ⟨ho1, ho2⟩ := hR c hcl
          have hrcf : (h.free a).rcAt c = h.rcAt c := by
            rw [show (h.free a).rcAt c = (h.rc.set a 0).getD c 0 from rfl,
              getD_set_ne h.rc a c (fun hh => hca hh.symm) 0 0]
            rfl
          refine ⟨?_, by rw [hrcf]; exact ho2⟩
          rw [hrcf, ho1]
          have hfree := nodeRefs_free h.nodes a nd hnd c
          cases hnx : nd.next with
          | none =>
            rw [hnx] at hfree
            simp only [if_neg (by simp : ¬ (none : Link) = some c)] at hfree
            rw [refs, refs, handleRefs_append_none, handleRefs_append_some,
              if_neg (fun hh => hca hh.symm), free_nodes]
            omega
          | some b =>
            rw [hnx] at hfree
            simp only [Option.some.injEq] at hfree
            rw [refs, refs, handleRefs_append_some, handleRefs_append_some,
              if_neg (fun hh => hca hh.symm), free_nodes]
            omega
        have hcurf : ∀ b, nd.next = some b →
            nodeAt (h.free a).nodes b ≠ none ∧ b < fuel := by
          intro b hb
          obtain ⟨hba, hbl⟩ := hL a nd b hnd hb
          have hbne : b ≠ a := by omega
          constructor
          · rw [free_nodes, nodeAt,
              getD_set_ne h.nodes a b (fun hh => hbne hh.symm) none none]
            exact hbl
          · omega
        have hlenf : (h.free a).rc.length = (h.free a).nodes.length := by
          simp [Heap.free, hlen]
        obtain ⟨c1, c2, c3, c4, c5⟩ := ih (h.free a) hs nd.next hlenf hLf hHf hRf hcurf
        refine ⟨c1, ?_, c3, c4, c5⟩
        rw [c2, free_nodes, List.length_set]
      · -- the node stays shared: only the cursor reference is dropped
        rw [dropLoop_succ_shared h fuel a hrc1]
        have harc : a < h.rc.length := by
          refine getD_lt_of_ne h.rc a 0 ?_
          intro h0
          rw [show h.rc.getD a 0 = h.rcAt a from rfl] at h0
          omega
        refine ⟨by simp [Heap.decr, hlen], rfl, hL, hH, ?_⟩
        intro c hcl
        rw [decr_nodes] at hcl
        obtain ⟨ho1, ho2⟩ := hR c hcl
        rw [show (h.decr a).nodes = h.nodes from rfl]
        by_cases hc : c = a
        · subst hc
          have hrc' : (h.decr c).rcAt c = h.rcAt c - 1 := by
            rw [show (h.decr c).rcAt c = (h.rc.set c (h.rcAt c - 1)).getD c 0 from rfl,
              getD_set_self h.rc c harc]
          rw [refs, handleRefs_append_some, if_pos rfl] at ho1
          constructor
          · rw [hrc', refs]
            omega
          · rw [hrc']
            omega
        · have hrc' : (h.decr a).rcAt c = h.rcAt c := by
            rw [show (h.decr a).rcAt c = (h.rc.set a (h.rcAt a - 1)).getD c 0 from rfl,
              getD_set_ne h.rc a c (fun hh => hc hh.symm) _ 0]
            rfl
          rw [refs, handleRefs_append_some, if_neg (fun hh => hc hh.symm)] at ho1
          exact ⟨by rw [hrc', refs]; omega, by rw [hrc']; exact ho2⟩

theorem step_unfold_prepend (s : MState α) (i : Nat) (e : α)
    (hi : i < s.handles.length) :
    step s (.prependOp i e) = ⟨(prepend s.heap s.handles[i] e).1,
      s.handles ++ [(prepend s.heap s.handles[i] e).2]⟩ := dif_pos hi

theorem step_unfold_prepend_ge (s : MState α) (i : Nat) (e : α)
    (hi : ¬ i < s.handles.length) : step s (.prependOp i e) = s := dif_neg hi

theorem step_unfold_tail (s : MState α) (i : Nat) (hi : i < s.handles.length) :
    step s (.tailOp i) = ⟨(tail s.heap s.handles[i]).1,
      s.handles ++ [(tail s.heap s.handles[i]).2]⟩ := dif_pos hi

theorem step_unfold_tail_ge (s : MState α) (i : Nat)
    (hi : ¬ i < s.handles.length) : step s (.tailOp i) = s := dif_neg hi

theorem step_unfold_drop (s : MState α) (i : Nat) (hi : i < s.handles.length) :
    step s (.dropOp i) = ⟨dropList s.heap s.handles[i], s.handles.eraseIdx i⟩ :=
  dif_pos hi

theorem step_unfold_drop_ge (s : MState α) (i : Nat)
    (hi : ¬ i < s.handles.length) : step s (.dropOp i) = s := dif_neg hi

theorem step_inv (s : MState α) (op : Op α) (hInv : Inv s) : Inv (step s op) := by
  obtain ⟨hlen, hL, hH, hR⟩ := hInv
  cases op with
  | newOp =>
    refine ⟨hlen, hL, ?_, ?_⟩
    · show HandlesWF s.heap.nodes (s.handles ++ [none])
      intro l hl b hlb
      rcases List.mem_append.mp hl with hm | hm
      · exact hH l hm b hlb
      · rw [List.mem_singleton] at hm
        rw [hm] at hlb
        exact absurd hlb (by simp)
    · show RcWF s.heap (s.handles ++ [none])
      intro c hcl
      obtain ⟨h1, h2⟩ := hR c hcl
      refine ⟨?_, h2⟩
      rw [refs_append_none]
      exact h1
  | prependOp i e =>
    by_cases hi : i < s.handles.length
    · rw [step_unfold_prepend s i e hi]
      have hmem : s.handles[i] ∈ s.handles := List.getElem_mem hi
      have hlv : ∀ b, s.handles[i] = some b → nodeAt s.heap.nodes b ≠ none :=
        hH _ hmem
      have hpn := prepend_nodes s.heap s.handles[i] e
      have hpr := prepend_rc s.heap s.handles[i] e
      have hplink := prepend_link s.heap s.handles[i] e
      have hcllen2 : (cloneLink s.heap s.handles[i]).rc.length
          = s.heap.nodes.length := by
        rw [cloneLink_rc_len, hlen]
      refine ⟨?_, ?_, ?_, ?_⟩
      · show (prepend s.heap s.handles[i] e).1.rc.length
          = (prepend s.heap s.handles[i] e).1.nodes.length
        rw [hpn, hpr, List.length_append, List.length_append, cloneLink_rc_len, hlen]
        rfl
      · show LinksWF (prepend s.heap s.handles[i] e).1.nodes
        rw [hpn]
        intro x nd' b hx hb
        rcases Nat.lt_trichotomy x s.heap.nodes.length with hxl | hxe | hxg
        · rw [nodeAt, getD_append_lt _ _ _ hxl none] at hx
          obtain ⟨hba, hbl⟩ := hL x nd' b hx hb
          refine ⟨hba, ?_⟩
          rw [nodeAt, getD_append_lt _ _ _ (by omega) none]
          exact hbl
        · rw [nodeAt, hxe, getD_append_self] at hx
          injection hx with hx'
          rw [← hx'] at hb
          have hbl := hlv b hb
          obtain ⟨bnd, hbnd⟩ := ne_none_ex _ b hbl
          have hblen := nodeAt_lt _ b bnd hbnd
          refine ⟨by omega, ?_⟩
          rw [nodeAt, getD_append_lt _ _ _ (by omega) none]
          exact hbl
        · rw [nodeAt, getD_ge _ x (by simp [List.length_append]; omega) none] at hx
          exact absurd hx (by simp)
      · show HandlesWF (prepend s.heap s.handles[i] e).1.nodes
          (s.handles ++ [(prepend s.heap s.handles[i] e).2])
        rw [hpn, hplink]
        intro l2 hl2 b hlb
        rcases List.mem_append.mp hl2 with hm | hm
        · have hbl := hH l2 hm b hlb
          obtain ⟨bnd, hbnd⟩ := ne_none_ex _ b hbl
          have hblen := nodeAt_lt _ b bnd hbnd
          rw [nodeAt, getD_append_lt _ _ _ hblen none]
          exact hbl
        · rw [List.mem_singleton] at hm
          rw [hm] at hlb
          injection hlb with hlb'
          rw [nodeAt, ← hlb', getD_append_self]
          simp
      · show RcWF (prepend s.heap s.handles[i] e).1
          (s.handles ++ [(prepend s.heap s.handles[i] e).2])
        intro c hcl
        rcases Nat.lt_trichotomy c s.heap.nodes.length with hcl1 | hce | hcg
        · have hcold : nodeAt s.heap.nodes c ≠ none := by
            rw [hpn, nodeAt, getD_append_lt _ _ _ hcl1 none] at hcl
            exact hcl
          obtain ⟨ho1, ho2⟩ := hR c hcold
          have hrc2 : (prepend s.heap s.handles[i] e).1.rcAt c
              = s.heap.rcAt c + (if s.handles[i] = some c then 1 else 0) := by
            rw [show (prepend s.heap s.handles[i] e).1.rcAt c
              = (prepend s.heap s.handles[i] e).1.rc.getD c 0 from rfl, hpr,
              getD_append_lt _ _ _ (by omega) 0]
            exact cloneLink_rcAt s.heap s.handles[i] c (by omega)
          constructor
          · rw [hrc2, refs, hpn, hplink, handleRefs_append_some,
              if_neg (show ¬ s.heap.nodes.length = c by omega),
              nodeRefs_append_node, ho1, refs]
            omega
          · rw [hrc2]
            omega
        · have hrcn : (prepend s.heap s.handles[i] e).1.rcAt c = 1 := by
            rw [show (prepend s.heap s.handles[i] e).1.rcAt c
              = (prepend s.heap s.handles[i] e).1.rc.getD c 0 from rfl, hpr, hce,
              ← hcllen2, getD_append_self]
          have hh0 : handleRefs s.handles c = 0 := by
            by_contra h0
            have hmem2 : some c ∈ s.handles :=
              mem_of_handleRefs_pos s.handles c (by omega)
            have hlc := hH _ hmem2 c rfl
            rw [nodeAt, getD_ge _ c (by omega) none] at hlc
            exact hlc rfl
          have hn0 : nodeRefs s.heap.nodes c = 0 := by
            by_contra h0
            have hpos : 1 ≤ nodeRefs s.heap.nodes c := by omega
            obtain ⟨x, nd', hx, hnx⟩ := nodeRefs_ex _ c hpos
            have hcx := (hL x nd' c hx hnx).1
            have hxl := nodeAt_lt _ x nd' hx
            omega
          have hif : (if s.handles[i] = some c then 1 else 0) = 0 := by
            by_cases hif2 : s.handles[i] = some c
            · have hlc := hlv c hif2
              rw [nodeAt, getD_ge _ c (by omega) none] at hlc
              exact absurd rfl hlc
            · rw [if_neg hif2]
          constructor
          · rw [hrcn, refs, hpn, hplink, handleRefs_append_some, if_pos hce.symm,
              nodeRefs_append_node, hh0, hn0, hif]
          · rw [hrcn]

        · rw [hpn, nodeAt, getD_ge _ c (by simp [List.length_append]; omega) none] at hcl
          exact absurd rfl hcl
    · rw [step_unfold_prepend_ge s i e hi]
      exact ⟨hlen, hL, hH, hR⟩
  | tailOp i =>
    by_cases hi : i < s.handles.length
    · rw [step_unfold_tail s i hi]
      have hmem : s.handles[i] ∈ s.handles := List.getElem_mem hi
      cases hli : s.handles[i] with
      | none =>
        refine ⟨hlen, hL, ?_, ?_⟩
        · show HandlesWF s.heap.nodes (s.handles ++ [none])
          intro l hl b hlb
          rcases List.mem_append.mp hl with hm | hm
          · exact hH l hm b hlb
          · rw [List.mem_singleton] at hm
            rw [hm] at hlb
            exact absurd hlb (by simp)
        · show RcWF s.heap (s.handles ++ [none])
          intro c hcl
          obtain ⟨h1, h2⟩ := hR c hcl
          refine ⟨?_, h2⟩
          rw [refs_append_none]
          exact h1
      | some a =>
        have hlive : nodeAt s.heap.nodes a ≠ none := hH _ hmem a hli
        obtain ⟨nd, hnd⟩ := ne_none_ex _ a hlive
        rw [tail_some s.heap a nd hnd]
        cases hnx : nd.next with
        | none =>
          refine ⟨hlen, hL, ?_, ?_⟩
          · show HandlesWF s.heap.nodes (s.handles ++ [none])
            intro l hl b hlb
            rcases List.mem_append.mp hl with hm | hm
            · exact hH l hm b hlb
            · rw [List.mem_singleton] at hm
              rw [hm] at hlb
              exact absurd hlb (by simp)
          · show RcWF s.heap (s.handles ++ [none])
            intro c hcl
            obtain ⟨h1, h2⟩ := hR c hcl
            refine ⟨?_, h2⟩
            rw [refs_append_none]
            exact h1
        | some b =>
          have hblive : nodeAt s.heap.nodes b ≠ none := (hL a nd b hnd hnx).2
          obtain ⟨bnd, hbnd⟩ := ne_none_ex _ b hblive
          have hblen : b < s.heap.nodes.length := nodeAt_lt _ b bnd hbnd
          refine ⟨?_, hL, ?_, ?_⟩
          · show (s.heap.incr b).rc.length = (s.heap.incr b).nodes.length
            simp [Heap.incr, hlen]
          · show HandlesWF s.heap.nodes (s.handles ++ [some b])
            intro l hl x hlx
            rcases List.mem_append.mp hl with hm | hm
            · exact hH l hm x hlx
            · rw [List.mem_singleton] at hm
              rw [hm] at hlx
              injection hlx with hx
              rw [← hx]
              exact hblive
          · show RcWF (s.heap.incr b) (s.handles ++ [some b])
            intro c hcl
            obtain ⟨h1, h2⟩ := hR c hcl
            by_cases hcb : c = b
            · subst hcb
              have hrc' : (s.heap.incr c).rcAt c = s.heap.rcAt c + 1 := by
                rw [show (s.heap.incr c).rcAt c
                  = (s.heap.rc.set c (s.heap.rcAt c + 1)).getD c 0 from rfl,
                  getD_set_self s.heap.rc c (by omega)]
              constructor
              · show (s.heap.incr c).rcAt c
                  = refs s.heap.nodes (s.handles ++ [some c]) c
                rw [hrc', refs, handleRefs_append_some, if_pos rfl]
                rw [refs] at h1
                omega
              · rw [hrc']
                omega
            · have hrc' : (s.heap.incr b).rcAt c = s.heap.rcAt c := by
                rw [show (s.heap.incr b).rcAt c
                  = (s.heap.rc.set b (s.heap.rcAt b + 1)).getD c 0 from rfl,
                  getD_set_ne s.heap.rc b c (fun hh => hcb hh.symm) _ 0]
                rfl
              constructor
              · show (s.heap.incr b).rcAt c
                  = refs s.heap.nodes (s.handles ++ [some b]) c
                rw [hrc', refs, handleRefs_append_some, if_neg (fun hh => hcb hh.symm)]
                rw [refs] at h1
                omega
              · rw [hrc']
                exact h2
    · rw [step_unfold_tail_ge s i hi]
      exact ⟨hlen, hL, hH, hR⟩
  | dropOp i =>
    by_cases hi : i < s.handles.length
    · rw [step_unfold_drop s i hi]
      have hperm : List.Perm s.handles (s.handles.eraseIdx i ++ [s.handles[i]]) := by
        have h1 := List.perm_cons_erase (List.getElem_mem hi)
        have h2 := List.erase_getElem hi
        exact (h1.trans (List.Perm.cons _ h2)).trans
          (List.perm_append_singleton _ _).symm
      have hcount : ∀ c, handleRefs s.handles c
          = handleRefs (s.handles.eraseIdx i ++ [s.handles[i]]) c :=
        fun c => handleRefs_perm _ _ hperm c
      have hR' : RcWF s.heap (s.handles.eraseIdx i ++ [s.handles[i]]) := by
        intro c hcl
        obtain ⟨h1, h2⟩ := hR c hcl
        refine ⟨?_, h2⟩
        rw [refs, ← hcount c]
        rw [refs] at h1
        exact h1
      have hH' : HandlesWF s.heap.nodes (s.handles.eraseIdx i) := by
        intro l hl b hlb
        have hl2 : l ∈ s.handles :=
          hperm.mem_iff.mpr (List.mem_append.mpr (Or.inl hl))
        exact hH l hl2 b hlb
      have hcur : ∀ a, s.handles[i] = some a →
          nodeAt s.heap.nodes a ≠ none ∧ a < s.heap.nodes.length := by
        intro a ha
        have hla := hH _ (List.getElem_mem hi) a ha
        obtain ⟨nda, hnda⟩ := ne_none_ex _ a hla
        exact ⟨hla, nodeAt_lt _ a nda hnda⟩
      obtain ⟨c1, c2, c3, c4, c5⟩ := dropLoop_inv s.heap.nodes.length s.heap
        (s.handles.eraseIdx i) s.handles[i] hlen hL hH' hR' hcur
      exact ⟨c1, c3, c4, c5⟩
    · rw [step_unfold_drop_ge s i hi]
      exact ⟨hlen, hL, hH, hR⟩

theorem inv_init : Inv (⟨⟨[], []⟩, []⟩ : MState α) := by
  refine ⟨rfl, ?_, ?_, ?_⟩
  · intro a nd b ha
    rw [nodeAt] at ha
    simp [List.getD] at ha
  · intro l hl
    simp at hl
  · intro a ha
    rw [nodeAt] at ha
    simp [List.getD] at ha

theorem run_inv_aux : ∀ (p : List (Op α)) (s : MState α), Inv s → Inv (p.foldl step s) := by
  intro p
  induction p with
  | nil => intro s hs; exact hs
  | cons op p ihp => intro s hs; exact ihp (step s op) (step_inv s op hs)

theorem no_handles_no_live (s : MState α) (hInv : Inv s) (hh : s.handles = []) :
    liveCount s.heap = 0 := by
  obtain ⟨hlen, hL, hH, hR⟩ := hInv
  have key : ∀ (k a : Nat), s.heap.nodes.length ≤ a + k →
      nodeAt s.heap.nodes a = none := by
    intro k
    induction k with
    | zero =>
      intro a ha
      exact getD_ge _ a (by omega) none
    | succ k ihk =>
      intro a ha
      by_contra hlive
      obtain ⟨rc_eq, rc_pos⟩ := hR a hlive
      have h0 : handleRefs s.handles a = 0 := by
        rw [hh]
        rfl
      rw [refs, h0] at rc_eq
      have h1 : 1 ≤ nodeRefs s.heap.nodes a := by omega
      obtain ⟨x, nd, hx, hnx⟩ := nodeRefs_ex _ a h1
      have hax := (hL x nd a hx hnx).1
      have hxlen := nodeAt_lt _ x nd hx
      have hxn := ihk x (by omega)
      rw [hxn] at hx
      exact absurd hx (by simp)
  have hfil : s.heap.nodes.filter Option.isSome = [] := by
    rw [List.filter_eq_nil_iff]
    intro c hc
    obtain ⟨x, hxl, hx⟩ := mem_nodeAt _ c hc
    have hxn := key s.heap.nodes.length x (by omega)
    rw [hxn] at hx
    rw [← hx]
    simp
  rw [liveCount, hfil]
  rfl

theorem dropAllGo_inv : ∀ (n : Nat) (s : MState α), Inv s → s.handles.length = n →
    Inv (dropAllGo n s) ∧ (dropAllGo n s).handles = [] := by
  intro n
  induction n with
  | zero =>
    intro s hs hlen
    exact ⟨hs, List.length_eq_zero.mp hlen⟩
  | succ n ihn =>
    intro s hs hlen
    have hpos : 0 < s.handles.length := by omega
    have hstep := step_inv s (.dropOp 0) hs
    have hlen' : (step s (.dropOp 0)).handles.length = n := by
      rw [step_unfold_drop s 0 hpos]
      show (s.handles.eraseIdx 0).length = n
      have he := List.length_eraseIdx_add_one hpos
      omega
    exact ihn (step s (.dropOp 0)) hstep hlen'

/-- C9: under every finite program of new/prepend/tail/drop operations
across arbitrarily many handles sharing ancestor chains, the machine
invariant holds at every point (every handle and every live node's link
always references a live node — no use after free, and every live node's
strong count equals its actual reference count and is positive — no
orphaned allocation); and once the remaining handles are all dropped the
live-node count returns to zero: every allocated node has been freed,
and freeing only ever happens to a live node, so each node is freed
exactly once. -/
theorem no_leak_no_uaf (prog : List (Op α)) :
    Inv (run prog) ∧ (dropAll (run prog)).handles = [] ∧
      liveCount (dropAll (run prog)).heap = 0 := by
  have h1 : Inv (run prog) := run_inv_aux prog _ inv_init
  obtain ⟨h2, h3⟩ := dropAllGo_inv (run prog).handles.length (run prog) h1 rfl
  exact ⟨h1, h3, no_handles_no_live _ h2 h3⟩

/-! ### Concrete witnesses -/

/-- A tiny concrete heap used to witness the theorems with hypotheses:
one live node holding 7 with no successor, strong count 1. -/
def oneHeap : Heap Nat := ⟨[some ⟨7, none⟩], [1]⟩

theorem tail_prepend_readList_witness :
    readList (tail (prepend oneHeap (some 0) 5).1 (prepend oneHeap (some 0) 5).2).1
      (tail (prepend oneHeap (some 0) 5).1 (prepend oneHeap (some 0) 5).2).2
      = readList oneHeap (some 0) :=
  tail_prepend_readList oneHeap (some 0) 5 (by decide)

theorem drop_branch_preserves_shared_witness :
    readList (dropList (prepend (prepend oneHeap (some 0) 5).1 (some 0) 6).1
        (prepend oneHeap (some 0) 5).2)
      (prepend (prepend oneHeap (some 0) 5).1 (some 0) 6).2
      = 6 :: readList oneHeap (some 0) :=
  drop_branch_preserves_shared oneHeap (some 0) 5 6 (by decide) (by decide)

theorem iter_order_witness :
    (readList (build [3, 2, 1]).1 (build [3, 2, 1] : Heap Nat × Link).2 = [1, 2, 3]) ∧
      readList (prepend oneHeap (some 0) 5).1 (prepend oneHeap (some 0) 5).2
        = 5 :: readList oneHeap (some 0) :=
  iter_order oneHeap (some 0) 5 (by decide)

theorem tail_repeated_empties_witness :
    (tails oneHeap (some 0) 2).2 = none ∧
      head (tails oneHeap (some 0) 2).1 (tails oneHeap (some 0) 2).2 = none :=
  tail_repeated_empties oneHeap (some 0) 1 (by decide) (by decide) 2 (by decide)

theorem ops_no_mutation_witness :
    (∀ a, a < oneHeap.size →
        nodeAt (prepend oneHeap none 9).1.nodes a = nodeAt oneHeap.nodes a) ∧
      (tail oneHeap none).1.nodes = oneHeap.nodes ∧
      readList (prepend oneHeap none 9).1 (some 0) = readList oneHeap (some 0) ∧
      readList (tail oneHeap none).1 (some 0) = readList oneHeap (some 0) :=
  ops_no_mutation oneHeap none (some 0) 9 (by decide)

theorem drop_frees_solely_owned_witness :
    (∀ z, nodeAt (dropList oneHeap (some 0)).nodes z
        = if z ∈ soleOwned oneHeap oneHeap.size (some 0) then none
          else nodeAt oneHeap.nodes z) ∧
      liveCount (dropList oneHeap (some 0))
          + (soleOwned oneHeap oneHeap.size (some 0)).length = liveCount oneHeap ∧
      dropSteps oneHeap oneHeap.size (some 0)
        ≤ (soleOwned oneHeap oneHeap.size (some 0)).length + 1 :=
  drop_frees_solely_owned oneHeap (some 0) (by decide)

theorem iter_head_tail_coherent_witness :
    ((iterNext oneHeap.nodes (iter (some 0))).map Prod.fst = head oneHeap (some 0)) ∧
      (head oneHeap (some 0) = none → readList oneHeap (some 0) = []) ∧
      (∀ e, head oneHeap (some 0) = some e →
        readList oneHeap (some 0)
          = e :: readList (tail oneHeap (some 0)).1 (tail oneHeap (some 0)).2) :=
  iter_head_tail_coherent oneHeap (some 0) (by decide)

end Third
